import Mathlib

/-!
Verification development for the Crucible (LLM Council) frontend epistemic
layer. The definitions below are shallow embeddings of the functions in
`frontend/src/utils/epistemic.js` (verdict waterfall, peer alignment,
claim annotation) and of the Phase 0 review flow in `App.jsx`.

JS strings are modelled as `String` (for the verdict logic, which only
compares them) or `List Char` (for the annotation algorithm, which does
positional surgery). JS numbers holding confidences, averages and ratios
are modelled as `ℚ`; the code only adds, divides and compares them.
Character classes (`\w`, `\s`, `toLowerCase`) are modelled on their ASCII
fragment, which is all the proofs and witnesses use.
-/

namespace Crucible

/-- Status enum of a Stage 2.5 verification result
(`VERIFIED | CONTRADICTED | CONTESTED | UNVERIFIABLE`), per the
VerificationResult data model. -/
inductive VStatus where
  | verified
  | contradicted
  | contested
  | unverifiable
deriving DecidableEq, Repr

/-- A Stage 2.5 verification result as consumed by `calcVerdict` and
`annotateChairmanText`: a claim string and a status. -/
structure VerificationResult where
  claim : List Char
  status : VStatus
deriving DecidableEq, Repr

/-- A Stage 1 model response as consumed by `calcVerdict` and
`calcPeerAlignment`: `confidence` is `number|null` (`none` = null or the
field filtered out by `v != null`), `factual_claims` is `none` when the
field is absent or not an array (the code checks `Array.isArray`). -/
structure Stage1Response where
  confidence : Option ℚ
  factual_claims : Option (List String)
deriving DecidableEq, Repr

/-- ASCII `\w` character class of the JS regex `/[^\w\s]/g`. -/
def isJsWordChar (c : Char) : Bool :=
  c.isAlphanum || c == '_'

/-- ASCII `\s` character class. -/
def isJsSpaceChar (c : Char) : Bool :=
  c == ' ' || c == '\t' || c == '\n' || c == '\r' || c == '\x0b' || c == '\x0c'

/-- JS `String.prototype.trim` on the ASCII fragment: drop whitespace from
both ends. -/
def trimChars (l : List Char) : List Char :=
  ((l.dropWhile isJsSpaceChar).reverse.dropWhile isJsSpaceChar).reverse

/-- The local `normalize` helper shared by `calcPeerAlignment` and
`calcVerdict`: `str.toLowerCase().replace(/[^\w\s]/g, '').trim()`. -/
def normalize (str : String) : String :=
  String.mk (trimChars ((str.toList.map Char.toLower).filter
    (fun c => isJsWordChar c || isJsSpaceChar c)))

/-- First-occurrence deduplication with an accumulator of already-seen
elements; recursion is structural on the remaining list. -/
def jsSetDedupAux {α : Type _} [DecidableEq α] (seen : List α) : List α → List α
  | [] => []
  | a :: l => if a ∈ seen then jsSetDedupAux seen l else a :: jsSetDedupAux (a :: seen) l

/-- JS `[...new Set(flat)]`: the distinct elements of `flat` in order of
first occurrence. -/
def jsSetDedup {α : Type _} [DecidableEq α] (l : List α) : List α :=
  jsSetDedupAux [] l

/-- The `confidences` local of `calcVerdict` (and of `calcPeerAlignment`'s
fallback): `stage1.map((r) => r.confidence).filter((v) => v != null)`. -/
def confidences (stage1 : List Stage1Response) : List ℚ :=
  (stage1.map (fun r => r.confidence)).filterMap id

/-- The `avgConf` local of `calcVerdict`: mean of the non-null confidences,
`null` when there are none. -/
def avgConf (stage1 : List Stage1Response) : Option ℚ :=
  if 0 < (confidences stage1).length then
    some ((confidences stage1).foldl (fun sum v => sum + v) 0 / ((confidences stage1).length : ℚ))
  else none

/-- The `allClaims` local shared by `calcVerdict` and `calcPeerAlignment`:
per-response normalized claim lists, `[]` when `factual_claims` is not an
array. -/
def allClaims (stage1 : List Stage1Response) : List (List String) :=
  stage1.map (fun r => (r.factual_claims.getD []).map normalize)

/-- The `unique` local: `[...new Set(allClaims.flat())]`. -/
def uniqueClaims (stage1 : List Stage1Response) : List String :=
  jsSetDedup (allClaims stage1).flatten

/-- The `overlapping` local: normalized claims appearing in at least two
models' claim lists. -/
def overlappingClaims (stage1 : List Stage1Response) : List String :=
  (uniqueClaims stage1).filter (fun claim =>
    2 ≤ ((allClaims stage1).filter (fun list => list.contains claim)).length)

/-- The `overlapRatio` local: `overlapping.length / unique.length`. -/
def overlapRatio (stage1 : List Stage1Response) : ℚ :=
  ((overlappingClaims stage1).length : ℚ) / ((uniqueClaims stage1).length : ℚ)

/-- JS `avgConf !== null && avgConf < x`. -/
def avgLt (avg : Option ℚ) (x : ℚ) : Bool :=
  match avg with
  | none => false
  | some a => decide (a < x)

/-- JS `avgConf !== null && avgConf >= x`. -/
def avgGe (avg : Option ℚ) (x : ℚ) : Bool :=
  match avg with
  | none => false
  | some a => decide (x ≤ a)

/-- The filter of Step 1 of `calcVerdict`: results whose status is
`VERIFIED`, `CONTRADICTED` or `CONTESTED` (the `actionable` local). -/
def isActionable (r : VerificationResult) : Bool :=
  r.status == VStatus.verified || r.status == VStatus.contradicted
    || r.status == VStatus.contested

/-- The `actionable` local of `calcVerdict`. -/
def actionableResults (stage25 : List VerificationResult) : List VerificationResult :=
  stage25.filter isActionable

/-- Step 2 of `calcVerdict` (lines 67-101 of `epistemic.js`): the factual
consensus heuristic over the Stage 1 responses, reached when Step 1 falls
through. -/
def verdictStep2 (stage1 : List Stage1Response) : String :=
  if stage1.length = 0 then "Unknown"
  else if avgLt (avgConf stage1) 50 then "Uncertain"
  else if (allClaims stage1).all (fun list => list.isEmpty) then
    if avgGe (avgConf stage1) 65 then "Consensus" else "Split"
  else if decide ((1 : ℚ)/2 ≤ overlapRatio stage1) && avgGe (avgConf stage1) 65 then "Consensus"
  else if avgLt (avgConf stage1) 55 then "Uncertain"
  else "Split"

/-- The function `calcVerdict(stage25, stage1)` from `epistemic.js`: the epistemic
waterfall. Step 1 (external evidence) runs only on a non-empty `stage25`;
otherwise, and on fall-through, verdictStep2 runs. A `null` stage25/stage1
behaves exactly like `[]` in the source, so both are modelled as `[]`. -/
def calcVerdict (stage25 : List VerificationResult) (stage1 : List Stage1Response) : String :=
  if 0 < stage25.length then
    if stage25.any (fun r => r.status == VStatus.contradicted) then "Disputed"
    else if 0 < (actionableResults stage25).length
        ∧ (actionableResults stage25).all (fun r => r.status == VStatus.verified) = true then
      "Verified"
    else verdictStep2 stage1
  else verdictStep2 stage1

/-- JS `Math.max(...values)` for the non-empty lists it is applied to (the
empty case is unreachable in the source, which guards on length). -/
def jsMathMax : List ℚ → ℚ
  | [] => 0
  | a :: l => l.foldl max a

/-- JS `Math.min(...values)`, same proviso as `jsMathMax`. -/
def jsMathMin : List ℚ → ℚ
  | [] => 0
  | a :: l => l.foldl min a

/-- The `spread` local of `calcPeerAlignment`'s confidence fallback. -/
def confSpread (stage1 : List Stage1Response) : ℚ :=
  jsMathMax (confidences stage1) - jsMathMin (confidences stage1)

/-- The function `calcPeerAlignment(stage1)` from `epistemic.js`: claim-overlap signal
with a confidence-spread fallback. Its `allClaims`/`unique`/`overlapping`
locals are letter-identical to `calcVerdict`'s, so the shared definitions
above are reused. -/
def calcPeerAlignment (stage1 : List Stage1Response) : String :=
  if stage1.length < 2 then "Unknown"
  else if 0 < (uniqueClaims stage1).length then
    if (1 : ℚ)/2 ≤ overlapRatio stage1 then "Unanimous"
    else if (1 : ℚ)/5 ≤ overlapRatio stage1 then "Majority"
    else "Split"
  else if (confidences stage1).length = 0 then "Unknown"
  else if confSpread stage1 ≤ 15 then "Unanimous"
  else if confSpread stage1 ≤ 30 then "Majority"
  else "Split"

/-- An aggregate-rankings entry as passed to `calcPeerAlignment` by
`EpistemicSummary` and `EpistemicDrawer`: only `model` and `average_rank`
fields. -/
structure AggregateRanking where
  model : String
  average_rank : ℚ
deriving DecidableEq, Repr

/-- Reading `.factual_claims` and `.confidence` off an aggregate-rankings
entry yields `undefined` in JS: not an array (so treated as `[]`) and
removed by the `v != null` filter. This adapter encodes that view. -/
def aggregateToStage1 (_r : AggregateRanking) : Stage1Response :=
  { confidence := none, factual_claims := none }

/-- A false Boolean guard is not true; used to discharge `if_neg` sides. -/
theorem bool_ne_true {b : Bool} (h : b = false) : ¬ b = true := by
  simp [h]

/-- C1: any CONTRADICTED verification result forces the verdict `Disputed`,
whatever the other results and the Stage 1 responses are. -/
theorem calcVerdict_contradicted_disputed (stage25 : List VerificationResult)
    (stage1 : List Stage1Response) (r : VerificationResult)
    (hr : r ∈ stage25) (hc : r.status = VStatus.contradicted) :
    calcVerdict stage25 stage1 = "Disputed" := by
  have hlen : 0 < stage25.length := List.length_pos.mpr (List.ne_nil_of_mem hr)
  have hany : stage25.any (fun x => x.status == VStatus.contradicted) = true :=
    List.any_eq_true.mpr ⟨r, hr, by simp [hc]⟩
  simp [calcVerdict, hlen, hany]

/-- Witness for C1 at a concrete input. -/
theorem calcVerdict_contradicted_disputed_witness :
    calcVerdict [⟨[], VStatus.verified⟩, ⟨[], VStatus.contradicted⟩] [] = "Disputed" :=
  calcVerdict_contradicted_disputed _ _ ⟨[], VStatus.contradicted⟩ (by decide) rfl

/-- C2: with no CONTRADICTED result, at least one actionable result, and
every actionable result VERIFIED, the verdict is `Verified` for every
Stage 1 list (Stage 1 is not consulted). -/
theorem calcVerdict_all_verified (stage25 : List VerificationResult)
    (stage1 : List Stage1Response)
    (hne : stage25 ≠ [])
    (hnc : stage25.any (fun r => r.status == VStatus.contradicted) = false)
    (hact : ∃ r ∈ stage25, isActionable r = true)
    (hall : ∀ r ∈ stage25, isActionable r = true → r.status = VStatus.verified) :
    calcVerdict stage25 stage1 = "Verified" := by
  have hlen : 0 < stage25.length := List.length_pos.mpr hne
  obtain ⟨r, hr, hra⟩ := hact
  have hmem : r ∈ actionableResults stage25 := List.mem_filter.mpr ⟨hr, hra⟩
  have h1 : 0 < (actionableResults stage25).length :=
    List.length_pos.mpr (List.ne_nil_of_mem hmem)
  have h2 : (actionableResults stage25).all (fun r => r.status == VStatus.verified) = true := by
    refine List.all_eq_true.mpr (fun x hx => ?_)
    have hx' := List.mem_filter.mp hx
    simp [hall x hx'.1 hx'.2]
  unfold calcVerdict
  rw [if_pos hlen, if_neg (bool_ne_true hnc), if_pos ⟨h1, h2⟩]

/-- Witness for C2 at a concrete input. -/
theorem calcVerdict_all_verified_witness :
    calcVerdict [⟨[], VStatus.verified⟩, ⟨[], VStatus.unverifiable⟩]
      [⟨some 10, none⟩] = "Verified" :=
  calcVerdict_all_verified _ _ (by decide) (by decide)
    ⟨⟨[], VStatus.verified⟩, by decide, by decide⟩ (by decide)

/-- Monotonicity of the JS guard `avgConf !== null && avgConf < x` in `x`. -/
theorem avgLt_le_mono {avg : Option ℚ} (x y : ℚ) (hxy : x ≤ y)
    (h : avgLt avg x = true) : avgLt avg y = true := by
  cases avg with
  | none => simp [avgLt] at h
  | some a =>
    simp only [avgLt, decide_eq_true_eq] at h ⊢
    linarith

/-- Both Step 1 fall-through cases of `calcVerdict` (empty `stage25`, or no
CONTRADICTED and not all actionable VERIFIED) reach `verdictStep2`. -/
theorem calcVerdict_fallthrough (stage25 : List VerificationResult)
    (stage1 : List Stage1Response)
    (hnc : stage25.any (fun r => r.status == VStatus.contradicted) = false)
    (hnv : ¬ (0 < (actionableResults stage25).length
        ∧ (actionableResults stage25).all (fun r => r.status == VStatus.verified) = true)) :
    calcVerdict stage25 stage1 = verdictStep2 stage1 := by
  by_cases h : 0 < stage25.length
  · unfold calcVerdict
    rw [if_pos h, if_neg (bool_ne_true hnc), if_neg hnv]
  · unfold calcVerdict
    rw [if_neg h]

/-- C4 counterexample: with a lone CONTESTED verification result (so the
waterfall falls through), two Stage 1 responses declaring confidence 52 and
declaring no factual claims, the code returns `Split`, not the `Uncertain`
the claim requires for a sub-55 mean when Consensus fails. -/
theorem calcVerdict_noclaims_counterexample :
    calcVerdict [⟨[], VStatus.contested⟩] [⟨some 52, some []⟩, ⟨some 52, some []⟩] = "Split"
    ∧ calcVerdict [⟨[], VStatus.contested⟩] [⟨some 52, some []⟩, ⟨some 52, some []⟩]
        ≠ "Uncertain" := by
  have h : calcVerdict [⟨[], VStatus.contested⟩]
      [⟨some 52, some []⟩, ⟨some 52, some []⟩] = "Split" := by
    with_unfolding_all rfl
  exact ⟨h, by rw [h]; decide⟩

/-- C4 amended: on fall-through over a non-empty Stage 1 list, (i) a mean
confidence below 50 yields `Uncertain`; (ii) when at least one model
declared factual claims and the Consensus condition fails, a mean below 55
yields `Uncertain` and otherwise `Split`; (iii) when no model declared any
factual claims (and the mean is not below 50), the verdict is `Consensus`
exactly when the mean is at least 65, else `Split`. -/
theorem calcVerdict_heuristic_cases (stage25 : List VerificationResult)
    (stage1 : List Stage1Response)
    (hnc : stage25.any (fun r => r.status == VStatus.contradicted) = false)
    (hnv : ¬ (0 < (actionableResults stage25).length
        ∧ (actionableResults stage25).all (fun r => r.status == VStatus.verified) = true))
    (hne : stage1 ≠ []) :
    (avgLt (avgConf stage1) 50 = true → calcVerdict stage25 stage1 = "Uncertain")
    ∧ ((allClaims stage1).all (fun list => list.isEmpty) = false →
        (decide ((1 : ℚ)/2 ≤ overlapRatio stage1) && avgGe (avgConf stage1) 65) = false →
        (avgLt (avgConf stage1) 55 = true → calcVerdict stage25 stage1 = "Uncertain")
         ∧ (avgLt (avgConf stage1) 55 = false → calcVerdict stage25 stage1 = "Split"))
    ∧ ((allClaims stage1).all (fun list => list.isEmpty) = true →
        avgLt (avgConf stage1) 50 = false →
        (avgGe (avgConf stage1) 65 = true → calcVerdict stage25 stage1 = "Consensus")
         ∧ (avgGe (avgConf stage1) 65 = false → calcVerdict stage25 stage1 = "Split")) := by
  have hfall := calcVerdict_fallthrough stage25 stage1 hnc hnv
  have hlen : ¬ stage1.length = 0 := fun h => hne (List.length_eq_zero.mp h)
  refine ⟨fun h50 => ?_, fun hclaims hcons => ⟨fun h55 => ?_, fun h55 => ?_⟩,
    fun hclaims h50 => ⟨fun hge => ?_, fun hge => ?_⟩⟩
  · rw [hfall]; unfold verdictStep2; rw [if_neg hlen, if_pos h50]
  · rw [hfall]; unfold verdictStep2
    by_cases h50 : avgLt (avgConf stage1) 50 = true
    · rw [if_neg hlen, if_pos h50]
    · rw [if_neg hlen, if_neg h50, if_neg (bool_ne_true hclaims), if_neg (bool_ne_true hcons),
        if_pos h55]
  · rw [hfall]; unfold verdictStep2
    have h50 : ¬ avgLt (avgConf stage1) 50 = true := fun hx =>
      absurd (avgLt_le_mono 50 55 (by norm_num) hx) (bool_ne_true h55)
    rw [if_neg hlen, if_neg h50, if_neg (bool_ne_true hclaims), if_neg (bool_ne_true hcons),
      if_neg (bool_ne_true h55)]
  · rw [hfall]; unfold verdictStep2
    rw [if_neg hlen, if_neg (bool_ne_true h50), if_pos hclaims, if_pos hge]
  · rw [hfall]; unfold verdictStep2
    rw [if_neg hlen, if_neg (bool_ne_true h50), if_pos hclaims, if_neg (bool_ne_true hge)]

/-- Witness for the amended C4, exercising part (i) at the spec's concrete
case (d): empty verification set, no claims, mean confidence 40. -/
theorem calcVerdict_heuristic_cases_witness :
    calcVerdict [] [⟨some 40, none⟩] = "Uncertain" :=
  (calcVerdict_heuristic_cases [] [⟨some 40, none⟩] (by decide) (by decide)
    (by decide)).1 (by with_unfolding_all rfl)

/-- C5: on fall-through, with at least one declared factual claim, an
overlap ratio of at least one half and a mean declared confidence of at
least 65, the verdict is `Consensus`. -/
theorem calcVerdict_consensus (stage25 : List VerificationResult)
    (stage1 : List Stage1Response)
    (hnc : stage25.any (fun r => r.status == VStatus.contradicted) = false)
    (hnv : ¬ (0 < (actionableResults stage25).length
        ∧ (actionableResults stage25).all (fun r => r.status == VStatus.verified) = true))
    (hne : stage1 ≠ [])
    (hclaims : (allClaims stage1).all (fun list => list.isEmpty) = false)
    (a : ℚ) (havg : avgConf stage1 = some a) (h65 : 65 ≤ a)
    (hratio : (1 : ℚ)/2 ≤ overlapRatio stage1) :
    calcVerdict stage25 stage1 = "Consensus" := by
  have hfall := calcVerdict_fallthrough stage25 stage1 hnc hnv
  have hlen : ¬ stage1.length = 0 := fun h => hne (List.length_eq_zero.mp h)
  have h50 : avgLt (avgConf stage1) 50 = false := by
    simp only [avgLt, havg, decide_eq_false_iff_not, not_lt]
    linarith
  have hge : avgGe (avgConf stage1) 65 = true := by
    simp [avgGe, havg, h65]
  have hcons : (decide ((1 : ℚ)/2 ≤ overlapRatio stage1) && avgGe (avgConf stage1) 65)
      = true := by
    rw [hge, Bool.and_true]
    exact decide_eq_true hratio
  rw [hfall]; unfold verdictStep2
  rw [if_neg hlen, if_neg (bool_ne_true h50), if_neg (bool_ne_true hclaims), if_pos hcons]

/-- Witness for C5 at the spec's concrete case (c): empty verification set,
two models whose claim sets overlap 100%, both declaring confidence 80. -/
theorem calcVerdict_consensus_witness :
    calcVerdict [] [⟨some 80, some ["paris"]⟩, ⟨some 80, some ["paris"]⟩] = "Consensus" := by
  refine calcVerdict_consensus [] _ (by decide) (by decide) (by decide)
    (by with_unfolding_all rfl) 80 (by with_unfolding_all rfl) (by norm_num) ?_
  have h : overlapRatio [⟨some 80, some ["paris"]⟩, ⟨some 80, some ["paris"]⟩] = 1 := by
    with_unfolding_all rfl
  rw [h]
  norm_num

/-- C10: `calcPeerAlignment` applied to a list of aggregate-rankings
entries (no `factual_claims`, no `confidence`) of length at least two
returns `Unknown`; hence the call sites in `EpistemicSummary` and
`EpistemicDrawer`, which pass `aggregateRankings`, can never see
`Unanimous`, `Majority` or `Split`. -/
theorem allClaims_aggregate_flatten (l : List AggregateRanking) :
    (allClaims (l.map aggregateToStage1)).flatten = [] := by
  induction l with
  | nil => rfl
  | cons a t ih => simp_all [allClaims, aggregateToStage1]

/-- Aggregate-rankings entries contribute no non-null confidence. -/
theorem confidences_aggregate (l : List AggregateRanking) :
    confidences (l.map aggregateToStage1) = [] := by
  induction l with
  | nil => rfl
  | cons a t ih => simp_all [confidences, aggregateToStage1]

theorem calcPeerAlignment_rankings_unknown (l : List AggregateRanking)
    (h2 : 2 ≤ l.length) :
    calcPeerAlignment (l.map aggregateToStage1) = "Unknown" := by
  have huniq : uniqueClaims (l.map aggregateToStage1) = [] := by
    rw [uniqueClaims, allClaims_aggregate_flatten]
    rfl
  have hconf := confidences_aggregate l
  have hlen : ¬ (l.map aggregateToStage1).length < 2 := by
    rw [List.length_map]
    omega
  unfold calcPeerAlignment
  rw [if_neg hlen, if_neg (by simp [huniq]), if_pos (by rw [hconf]; rfl)]

/-- Witness for C10 at a concrete two-entry rankings list. -/
theorem calcPeerAlignment_rankings_unknown_witness :
    calcPeerAlignment ([⟨"m1", 1⟩, ⟨"m2", 2⟩].map aggregateToStage1) = "Unknown" :=
  calcPeerAlignment_rankings_unknown [⟨"m1", 1⟩, ⟨"m2", 2⟩] (by decide)

/-! ## Phase 0 review flow (App.jsx) -/

/-- The `phase0State` record held by `App.jsx`; `status` is whatever string
the handlers assign. -/
structure Phase0State where
  status : String
  original : String
  scrubbed : String
  reasoning : String
deriving DecidableEq, Repr

/-- The `PHASE0_IDLE` constant of `App.jsx`. -/
def PHASE0_IDLE : Phase0State :=
  ⟨"idle", "", "", ""⟩

/-- A Phase 0 scrub result as returned by `api.scrubPhase0`. -/
structure ScrubResult where
  original : String
  scrubbed : String
  reasoning : String
deriving DecidableEq, Repr

/-- State assigned by `handleSendMessage` before awaiting the scrubber:
`setPhase0State({ ...PHASE0_IDLE, status: 'scrubbing' })`. -/
def scrubbingState : Phase0State :=
  { PHASE0_IDLE with status := "scrubbing" }

/-- State assigned when `api.scrubPhase0` resolves: status `'pending'`
carrying the scrub result's fields. -/
def pendingState (r : ScrubResult) : Phase0State :=
  ⟨"pending", r.original, r.scrubbed, r.reasoning⟩

/-- The Phase 0 transitions of `App.jsx`, one constructor per
`setPhase0State` call site. Source-state guards reflect when each handler
can fire: sending is blocked while `isLoading` is set (which covers the
whole scrub/review window), the `scrubPhase0` promise resolves only after a
send entered `scrubbing`, and `Phase0Review` renders the Use Original /
Use Scrubbed / Cancel buttons only when status is `'pending'`. -/
inductive Phase0Step : Phase0State → Phase0State → Prop
  | send (s : Phase0State) (h : s.status = "idle") : Phase0Step s scrubbingState
  | scrubSuccess (s : Phase0State) (r : ScrubResult) (h : s.status = "scrubbing") :
      Phase0Step s (pendingState r)
  | scrubFailure (s : Phase0State) (h : s.status = "scrubbing") : Phase0Step s PHASE0_IDLE
  | useOriginal (s : Phase0State) (h : s.status = "pending") : Phase0Step s PHASE0_IDLE
  | useScrubbed (s : Phase0State) (h : s.status = "pending") : Phase0Step s PHASE0_IDLE
  | decline (s : Phase0State) (h : s.status = "pending") : Phase0Step s PHASE0_IDLE

/-- Phase 0 states reachable from the initial `PHASE0_IDLE`. -/
inductive Phase0Reachable : Phase0State → Prop
  | init : Phase0Reachable PHASE0_IDLE
  | step {s t : Phase0State} (hs : Phase0Reachable s) (h : Phase0Step s t) : Phase0Reachable t

/-- C8: every reachable Phase 0 state has status `idle`, `scrubbing` or
`pending`, and the review state (`pending`) is only ever entered carrying a
scrub result; the named transitions (idle to scrubbing on send, scrubbing to
pending on scrub success, scrubbing back to idle on scrub failure, pending
back to idle on Use Original / Use Scrubbed / Cancel) are exactly the
constructors of `Phase0Step`. -/
theorem phase0_three_state_machine (t : Phase0State) (ht : Phase0Reachable t) :
    (t.status = "idle" ∨ t.status = "scrubbing" ∨ t.status = "pending")
    ∧ (t.status = "pending" → ∃ r : ScrubResult, t = pendingState r) := by
  induction ht with
  | init => exact ⟨Or.inl rfl, fun h => absurd h (by decide)⟩
  | step hs h ih =>
    cases h with
    | send hst => exact ⟨Or.inr (Or.inl rfl), fun hp => absurd hp (by decide)⟩
    | scrubSuccess r hst => exact ⟨Or.inr (Or.inr rfl), fun _ => ⟨r, rfl⟩⟩
    | scrubFailure hst => exact ⟨Or.inl rfl, fun hp => absurd hp (by decide)⟩
    | useOriginal hst => exact ⟨Or.inl rfl, fun hp => absurd hp (by decide)⟩
    | useScrubbed hst => exact ⟨Or.inl rfl, fun hp => absurd hp (by decide)⟩
    | decline hst => exact ⟨Or.inl rfl, fun hp => absurd hp (by decide)⟩

/-- Witness for C8 at a concrete reachable pending state (idle, send,
scrub success). -/
theorem phase0_three_state_machine_witness :
    ((pendingState ⟨"orig", "scrub", "why"⟩).status = "idle"
      ∨ (pendingState ⟨"orig", "scrub", "why"⟩).status = "scrubbing"
      ∨ (pendingState ⟨"orig", "scrub", "why"⟩).status = "pending")
    ∧ ((pendingState ⟨"orig", "scrub", "why"⟩).status = "pending" →
        ∃ r : ScrubResult, pendingState ⟨"orig", "scrub", "why"⟩ = pendingState r) :=
  phase0_three_state_machine (pendingState ⟨"orig", "scrub", "why"⟩)
    (Phase0Reachable.step
      (Phase0Reachable.step Phase0Reachable.init (Phase0Step.send PHASE0_IDLE rfl))
      (Phase0Step.scrubSuccess scrubbingState ⟨"orig", "scrub", "why"⟩ rfl))

/-! ## Order-independence of the verdict (C7) -/

/-- Permutations do not change `List.any`. -/
theorem perm_any_eq {α : Type _} (p : α → Bool) {l l' : List α} (h : l.Perm l') :
    l.any p = l'.any p := by
  rw [Bool.eq_iff_iff, List.any_eq_true, List.any_eq_true]
  exact ⟨fun ⟨x, hx, hp⟩ => ⟨x, h.mem_iff.mp hx, hp⟩,
    fun ⟨x, hx, hp⟩ => ⟨x, h.mem_iff.mpr hx, hp⟩⟩

/-- Permutations do not change `List.all`. -/
theorem perm_all_eq {α : Type _} (p : α → Bool) {l l' : List α} (h : l.Perm l') :
    l.all p = l'.all p := by
  rw [Bool.eq_iff_iff, List.all_eq_true, List.all_eq_true]
  exact ⟨fun hf x hx => hf x (h.mem_iff.mpr hx), fun hf x hx => hf x (h.mem_iff.mp hx)⟩

/-- The source's `reduce((sum, v) => sum + v, 0)` is the list sum. -/
theorem foldl_add_eq_sum (l : List ℚ) (a : ℚ) :
    l.foldl (fun sum v => sum + v) a = a + l.sum := by
  induction l generalizing a with
  | nil => simp
  | cons x t ih => simp [ih, add_assoc]

/-- Membership in the dedup accumulator recursion. -/
theorem mem_jsSetDedupAux {α : Type _} [DecidableEq α] (seen l : List α) (x : α) :
    x ∈ jsSetDedupAux seen l ↔ x ∈ l ∧ x ∉ seen := by
  induction l generalizing seen with
  | nil => simp [jsSetDedupAux]
  | cons a t ih =>
    by_cases hc : a ∈ seen
    · simp only [jsSetDedupAux, if_pos hc, ih, List.mem_cons]
      constructor
      · rintro ⟨hx, hn⟩
        exact ⟨Or.inr hx, hn⟩
      · rintro ⟨hax, hn⟩
        rcases hax with rfl | hx
        · exact absurd hc hn
        · exact ⟨hx, hn⟩
    · simp only [jsSetDedupAux, if_neg hc, List.mem_cons, ih]
      constructor
      · rintro (rfl | ⟨hx, hn⟩)
        · exact ⟨Or.inl rfl, hc⟩
        · push_neg at hn
          exact ⟨Or.inr hx, hn.2⟩
      · rintro ⟨hax, hn⟩
        rcases hax with rfl | hx
        · exact Or.inl rfl
        · by_cases hxa : x = a
          · exact Or.inl hxa
          · refine Or.inr ⟨hx, ?_⟩
            push_neg
            exact ⟨hxa, hn⟩

/-- The dedup recursion produces no duplicates. -/
theorem nodup_jsSetDedupAux {α : Type _} [DecidableEq α] (seen l : List α) :
    (jsSetDedupAux seen l).Nodup := by
  induction l generalizing seen with
  | nil => simp [jsSetDedupAux]
  | cons a t ih =>
    by_cases hc : a ∈ seen
    · simpa [jsSetDedupAux, hc] using ih seen
    · rw [jsSetDedupAux, if_neg hc, List.nodup_cons]
      refine ⟨fun hmem => ?_, ih (a :: seen)⟩
      exact ((mem_jsSetDedupAux (a :: seen) t a).mp hmem).2 (List.mem_cons_self a seen)

/-- Dedup has the same members as its input. -/
theorem mem_jsSetDedup {α : Type _} [DecidableEq α] (l : List α) (x : α) :
    x ∈ jsSetDedup l ↔ x ∈ l := by
  simp [jsSetDedup, mem_jsSetDedupAux]

/-- Dedup produces no duplicates. -/
theorem nodup_jsSetDedup {α : Type _} [DecidableEq α] (l : List α) :
    (jsSetDedup l).Nodup :=
  nodup_jsSetDedupAux [] l

/-- Dedup of permuted lists yields permuted (in fact member-equal nodup)
lists. -/
theorem jsSetDedup_perm {α : Type _} [DecidableEq α] {l l' : List α} (h : l.Perm l') :
    (jsSetDedup l).Perm (jsSetDedup l') := by
  rw [List.perm_ext_iff_of_nodup (nodup_jsSetDedup l) (nodup_jsSetDedup l')]
  intro x
  rw [mem_jsSetDedup, mem_jsSetDedup]
  exact h.mem_iff

/-- Permuting Stage 1 permutes the non-null confidences. -/
theorem confidences_perm {s1 s1' : List Stage1Response} (h : s1.Perm s1') :
    (confidences s1).Perm (confidences s1') :=
  (h.map _).filterMap _

/-- Permuting Stage 1 does not change the mean declared confidence. -/
theorem avgConf_perm {s1 s1' : List Stage1Response} (h : s1.Perm s1') :
    avgConf s1 = avgConf s1' := by
  have hp := confidences_perm h
  unfold avgConf
  rw [hp.length_eq, foldl_add_eq_sum, foldl_add_eq_sum, hp.sum_eq]

/-- Permuting Stage 1 permutes the per-model claim lists. -/
theorem allClaims_perm {s1 s1' : List Stage1Response} (h : s1.Perm s1') :
    (allClaims s1).Perm (allClaims s1') :=
  h.map _

/-- Permuting Stage 1 permutes the unique normalized claims. -/
theorem uniqueClaims_perm {s1 s1' : List Stage1Response} (h : s1.Perm s1') :
    (uniqueClaims s1).Perm (uniqueClaims s1') :=
  jsSetDedup_perm (allClaims_perm h).flatten

/-- Permuting Stage 1 permutes the overlapping claims. -/
theorem overlappingClaims_perm {s1 s1' : List Stage1Response} (h : s1.Perm s1') :
    (overlappingClaims s1).Perm (overlappingClaims s1') := by
  unfold overlappingClaims
  have hp : ∀ claim : String,
      (decide (2 ≤ ((allClaims s1).filter (fun list => list.contains claim)).length))
        = (decide (2 ≤ ((allClaims s1').filter (fun list => list.contains claim)).length)) := by
    intro claim
    rw [((allClaims_perm h).filter _).length_eq]
  have h2 : ((uniqueClaims s1').filter fun claim =>
        decide (2 ≤ ((allClaims s1).filter (fun list => list.contains claim)).length))
      = ((uniqueClaims s1').filter fun claim =>
        decide (2 ≤ ((allClaims s1').filter (fun list => list.contains claim)).length)) :=
    List.filter_congr (fun x _ => hp x)
  rw [← h2]
  exact (uniqueClaims_perm h).filter _

/-- Permuting Stage 1 does not change the overlap ratio. -/
theorem overlapRatio_perm {s1 s1' : List Stage1Response} (h : s1.Perm s1') :
    overlapRatio s1 = overlapRatio s1' := by
  unfold overlapRatio
  rw [(overlappingClaims_perm h).length_eq, (uniqueClaims_perm h).length_eq]

/-- Permuting Stage 1 does not change the Step 2 heuristic verdict. -/
theorem verdictStep2_perm {s1 s1' : List Stage1Response} (h : s1.Perm s1') :
    verdictStep2 s1 = verdictStep2 s1' := by
  unfold verdictStep2
  rw [h.length_eq, avgConf_perm h, perm_all_eq _ (allClaims_perm h), overlapRatio_perm h]

/-- C7: `calcVerdict` is order-independent: permuting the verification
results and/or the Stage 1 responses never changes the verdict. -/
theorem calcVerdict_order_independent (stage25 stage25' : List VerificationResult)
    (stage1 stage1' : List Stage1Response)
    (h25 : stage25.Perm stage25') (h1 : stage1.Perm stage1') :
    calcVerdict stage25 stage1 = calcVerdict stage25' stage1' := by
  have hA : (actionableResults stage25).Perm (actionableResults stage25') :=
    h25.filter _
  unfold calcVerdict
  rw [h25.length_eq, perm_any_eq _ h25, hA.length_eq, perm_all_eq _ hA,
    verdictStep2_perm h1]

/-- Witness for C7 at concrete permuted inputs. -/
theorem calcVerdict_order_independent_witness :
    calcVerdict [⟨[], VStatus.verified⟩, ⟨[], VStatus.contested⟩]
        [⟨none, some ["a"]⟩, ⟨none, none⟩]
      = calcVerdict [⟨[], VStatus.contested⟩, ⟨[], VStatus.verified⟩]
        [⟨none, none⟩, ⟨none, some ["a"]⟩] :=
  calcVerdict_order_independent _ _ _ _ (by decide) (by decide)

/-! ## Claim annotation (annotateChairmanText) -/

/-- Lowercasing of the status enum, as in `item.status.toLowerCase()`. -/
def statusLower : VStatus → List Char
  | VStatus.verified => ("verified").toList
  | VStatus.contradicted => ("contradicted").toList
  | VStatus.contested => ("contested").toList
  | VStatus.unverifiable => ("unverifiable").toList

/-- A verification result tagged with its original index, as built by
`.map((r, idx) => ({ ...r, originalIdx: idx }))`. -/
structure IndexedResult where
  claim : List Char
  status : VStatus
  originalIdx : Nat
deriving DecidableEq, Repr

/-- A `replacements` entry pushed by the matching loop. The source's `end`
field is called `endPos` because `end` is reserved in Lean. -/
structure Replacement where
  start : Nat
  endPos : Nat
  claimIdx : Nat
  status : List Char
deriving DecidableEq, Repr

/-- Whether `needle` occurs in `hay` starting at position `i`. -/
def matchesAt (hay needle : List Char) (i : Nat) : Bool :=
  needle.isPrefixOf (hay.drop i)

/-- JS `hay.indexOf(needle, pos)`, with `none` for `-1`: the least index at
least `pos` at which `needle` occurs in `hay`. -/
def indexOfFrom (hay needle : List Char) (pos : Nat) : Option Nat :=
  (List.range (hay.length + 1)).find? (fun i => decide (pos ≤ i) && matchesAt hay needle i)

/-- A successful `indexOfFrom` yields a matching in-range index. -/
theorem indexOfFrom_bounds {hay needle : List Char} {pos i : Nat}
    (h : indexOfFrom hay needle pos = some i) :
    pos ≤ i ∧ i ≤ hay.length ∧ matchesAt hay needle i = true := by
  unfold indexOfFrom at h
  have hp := List.find?_some h
  have hm := List.mem_of_find?_eq_some h
  rw [List.mem_range] at hm
  rw [Bool.and_eq_true, decide_eq_true_eq] at hp
  exact ⟨hp.1, Nat.lt_succ_iff.mp hm, hp.2⟩

/-- The inner `while` loop of `annotateChairmanText`: starting from `pos`,
return the first occurrence of `claimLower` whose span `[found, found +
claimLen)` does not overlap any interval in `used`; an overlapping
occurrence retries from `found + 1`. -/
def findMatch (lower claimLower : List Char) (claimLen : Nat)
    (used : List (Nat × Nat)) (pos : Nat) : Option Nat :=
  match h : indexOfFrom lower claimLower pos with
  | none => none
  | some found =>
    if used.any (fun se => decide (found < se.2) && decide (se.1 < found + claimLen)) then
      findMatch lower claimLower claimLen used (found + 1)
    else some found
termination_by lower.length + 1 - pos
decreasing_by
  have hb := indexOfFrom_bounds h
  omega

/-- One iteration of the `for (const item of actionable)` loop: skip empty
claims (`if (!claimLower) continue`, with `claimLower` written out as
`item.claim.map Char.toLower`), otherwise place the claim's first
non-overlapping occurrence, pushing to `replacements` (first component) and
`used` (second component) in lockstep as the source does. -/
def annotateStep (lower : List Char) (acc : List Replacement × List (Nat × Nat))
    (item : IndexedResult) : List Replacement × List (Nat × Nat) :=
  if (item.claim.map Char.toLower).isEmpty then acc
  else
    match findMatch lower (item.claim.map Char.toLower) item.claim.length acc.2 0 with
    | none => acc
    | some found =>
      (acc.1 ++ [⟨found, found + item.claim.length, item.originalIdx, statusLower item.status⟩],
       acc.2 ++ [(found, found + item.claim.length)])

/-- The longest-first comparator `(a, b) => b.claim.length - a.claim.length`
as a relation: `a` may sit before `b` iff `a`'s claim is at least as long.
`Array.prototype.sort` is stable, and for this total preorder the stable
sort is computed by `List.insertionSort`. -/
def longerClaimRel (a b : IndexedResult) : Prop :=
  b.claim.length ≤ a.claim.length

instance : DecidableRel longerClaimRel :=
  fun a b => Nat.decLe b.claim.length a.claim.length

instance : IsTotal IndexedResult longerClaimRel :=
  ⟨fun a b => le_total b.claim.length a.claim.length⟩

instance : IsTrans IndexedResult longerClaimRel :=
  ⟨fun _ _ _ h1 h2 => le_trans h2 h1⟩

/-- The `actionable` local of `annotateChairmanText`: index-tagged results
restricted to `['VERIFIED', 'CONTRADICTED', 'CONTESTED'].includes(r.status)`. -/
def actionableIndexed (stage25Results : List VerificationResult) : List IndexedResult :=
  (stage25Results.enum.map (fun p => ⟨p.2.claim, p.2.status, p.1⟩)).filter
    (fun r => [VStatus.verified, VStatus.contradicted, VStatus.contested].contains r.status)

/-- The `replacements` array built by lines 169-203 of `epistemic.js`:
actionable claims sorted longest-first (stable), each taking its first
case-insensitive occurrence that overlaps no earlier match. -/
def computeReplacements (responseText : List Char)
    (stage25Results : List VerificationResult) : List Replacement :=
  (((actionableIndexed stage25Results).insertionSort longerClaimRel).foldl
    (annotateStep (responseText.map Char.toLower)) ([], [])).1

/-- Opening tag of the injected marker, up to and including the `>`. -/
def spanOpen (status : List Char) (claimIdx : Nat) : List Char :=
  ("<span class=\"claim-annotation claim-annotation--").toList ++ status
    ++ ("\" data-claim-idx=\"").toList ++ (Nat.repr claimIdx).toList
    ++ ("\" role=\"button\" tabindex=\"0\">").toList

/-- Closing tag of the injected marker. -/
def spanClose : List Char :=
  ("</span>").toList

/-- One surgery step: `result.slice(0, start) + span + result.slice(end)`
where `span` wraps `slice = result.slice(start, end)`. -/
def spliceReplacement (result : List Char) (r : Replacement) : List Char :=
  result.take r.start ++ spanOpen r.status r.claimIdx
    ++ (result.drop r.start).take (r.endPos - r.start) ++ spanClose
    ++ result.drop r.endPos

/-- The rightmost-first comparator `(a, b) => b.start - a.start` of the
application sort, same modelling as `longerClaimRel`. -/
def laterStartRel (a b : Replacement) : Prop :=
  b.start ≤ a.start

instance : DecidableRel laterStartRel :=
  fun a b => Nat.decLe b.start a.start

instance : IsTotal Replacement laterStartRel :=
  ⟨fun a b => le_total b.start a.start⟩

instance : IsTrans Replacement laterStartRel :=
  ⟨fun _ _ _ h1 h2 => le_trans h2 h1⟩

/-- The function `annotateChairmanText(responseText, stage25Results)` from
`epistemic.js`. The source's early return for an empty `actionable` list is
subsumed by the empty-`replacements` check: an empty `actionable` yields an
empty `replacements`, and both return `responseText` unchanged. -/
def annotateChairmanText (responseText : List Char)
    (stage25Results : List VerificationResult) : List Char :=
  if stage25Results.length = 0 then responseText
  else if (computeReplacements responseText stage25Results).length = 0 then responseText
  else ((computeReplacements responseText stage25Results).insertionSort laterStartRel).foldl
    spliceReplacement responseText

/-! ## Non-overlap invariant of the matching loop (C3) -/

/-- Interval disjointness of two replacements. -/
def disjointReps (a b : Replacement) : Prop :=
  a.endPos ≤ b.start ∨ b.endPos ≤ a.start

/-- What the matching loop guarantees for every pushed replacement: it
points at an actionable source result with a non-empty claim, spans exactly
that claim's length, carries its lowercased status, and sits on a
case-insensitive occurrence of the claim. -/
def GoodRep (lower : List Char) (rs : List VerificationResult) (r : Replacement) : Prop :=
  ∃ vr : VerificationResult, rs[r.claimIdx]? = some vr
    ∧ [VStatus.verified, VStatus.contradicted, VStatus.contested].contains vr.status = true
    ∧ vr.claim ≠ []
    ∧ r.endPos = r.start + vr.claim.length
    ∧ r.status = statusLower vr.status
    ∧ matchesAt lower (vr.claim.map Char.toLower) r.start = true

/-- Invariant threaded through the matching fold: `used` mirrors the
replacement intervals, the intervals are pairwise disjoint, and every
replacement is good. -/
def RepInv (lower : List Char) (rs : List VerificationResult)
    (acc : List Replacement × List (Nat × Nat)) : Prop :=
  acc.2 = acc.1.map (fun r => (r.start, r.endPos))
  ∧ List.Pairwise disjointReps acc.1
  ∧ ∀ r ∈ acc.1, GoodRep lower rs r

/-- Provenance of an `actionable` entry: it is an index-tagged copy of an
actionable result of the original list. -/
def ItemFromResults (rs : List VerificationResult) (item : IndexedResult) : Prop :=
  ∃ vr : VerificationResult, rs[item.originalIdx]? = some vr
    ∧ item.claim = vr.claim ∧ item.status = vr.status
    ∧ [VStatus.verified, VStatus.contradicted, VStatus.contested].contains vr.status = true

/-- A successful `findMatch` sits on an occurrence and overlaps nothing in
`used`. -/
theorem findMatch_spec (lower claimLower : List Char) (claimLen : Nat)
    (used : List (Nat × Nat)) (pos found : Nat)
    (hfm : findMatch lower claimLower claimLen used pos = some found) :
    matchesAt lower claimLower found = true
    ∧ used.any (fun se => decide (found < se.2) && decide (se.1 < found + claimLen))
        = false := by
  suffices H : ∀ n pos, lower.length + 1 - pos ≤ n →
      findMatch lower claimLower claimLen used pos = some found →
      matchesAt lower claimLower found = true
      ∧ used.any (fun se => decide (found < se.2) && decide (se.1 < found + claimLen))
          = false by
    exact H (lower.length + 1 - pos) pos le_rfl hfm
  intro n
  induction n with
  | zero =>
    intro pos hle h
    unfold findMatch at h
    split at h
    · cases h
    next found' heq =>
      have hb := indexOfFrom_bounds heq
      omega
  | succ n ih =>
    intro pos hle h
    unfold findMatch at h
    split at h
    · cases h
    next found' heq =>
      have hb := indexOfFrom_bounds heq
      by_cases hov : used.any
          (fun se => decide (found' < se.2) && decide (se.1 < found' + claimLen)) = true
      · rw [if_pos hov] at h
        exact ih (found' + 1) (by omega) h
      · rw [if_neg hov] at h
        cases h
        exact ⟨hb.2.2, Bool.eq_false_iff.mpr hov⟩

/-- Each loop iteration preserves the invariant. -/
theorem annotateStep_inv (lower : List Char) (rs : List VerificationResult)
    (acc : List Replacement × List (Nat × Nat)) (item : IndexedResult)
    (hitem : ItemFromResults rs item) (hinv : RepInv lower rs acc) :
    RepInv lower rs (annotateStep lower acc item) := by
  obtain ⟨hsync, hpw, hgood⟩ := hinv
  unfold annotateStep
  split
  · exact ⟨hsync, hpw, hgood⟩
  next hne =>
    split
    · exact ⟨hsync, hpw, hgood⟩
    next found heq =>
      obtain ⟨vr, hvr, hclaim, hstatus, hact⟩ := hitem
      have hspec := findMatch_spec _ _ _ _ _ _ heq
      have hof : ∀ se ∈ acc.2, ¬ (found < se.2 ∧ se.1 < found + item.claim.length) := by
        intro se hse
        have := List.any_eq_false.mp hspec.2 se hse
        simpa using this
      refine ⟨?_, ?_, ?_⟩
      · rw [hsync]
        simp
      · rw [List.pairwise_append]
        refine ⟨hpw, List.pairwise_singleton _ _, ?_⟩
        intro a ha b hb
        rw [List.mem_singleton] at hb
        subst hb
        have hmem : (a.start, a.endPos) ∈ acc.2 := by
          rw [hsync]
          exact List.mem_map_of_mem _ ha
        have hd := hof _ hmem
        unfold disjointReps
        simp only [] at hd ⊢
        omega
      · intro r hr
        rw [List.mem_append, List.mem_singleton] at hr
        rcases hr with hr | hr
        · exact hgood r hr
        · subst hr
          refine ⟨vr, ?_, hact, ?_, ?_, ?_, ?_⟩
          · exact hvr
          · intro hnil
            rw [hclaim, hnil] at hne
            exact hne rfl
          · rw [hclaim]
          · rw [hstatus]
          · rw [← hclaim]
            exact hspec.1

/-- The invariant holds after folding the whole `actionable` list. -/
theorem foldl_annotateStep_inv (lower : List Char) (rs : List VerificationResult)
    (items : List IndexedResult) :
    ∀ acc, (∀ item ∈ items, ItemFromResults rs item) → RepInv lower rs acc →
      RepInv lower rs (items.foldl (annotateStep lower) acc) := by
  induction items with
  | nil => exact fun acc _ hinv => hinv
  | cons a t ih =>
    intro acc hprov hinv
    exact ih _ (fun i hi => hprov i (List.mem_cons_of_mem _ hi))
      (annotateStep_inv lower rs acc a (hprov a (List.mem_cons_self _ _)) hinv)

/-- Every `actionable` entry comes from the results list. -/
theorem actionableIndexed_provenance (rs : List VerificationResult) :
    ∀ item ∈ actionableIndexed rs, ItemFromResults rs item := by
  intro item hmem
  unfold actionableIndexed at hmem
  rw [List.mem_filter] at hmem
  obtain ⟨hmap, hact⟩ := hmem
  rw [List.mem_map] at hmap
  obtain ⟨⟨i, x⟩, hp, hpe⟩ := hmap
  obtain ⟨hlt, hx⟩ := List.mem_enum hp
  subst hpe
  exact ⟨x, by rw [List.getElem?_eq_getElem hlt, hx], rfl, rfl, hact⟩

/-- The full invariant of the computed replacement list. -/
theorem computeReplacements_spec (responseText : List Char)
    (rs : List VerificationResult) :
    List.Pairwise disjointReps (computeReplacements responseText rs)
    ∧ ∀ r ∈ computeReplacements responseText rs,
        GoodRep (responseText.map Char.toLower) rs r := by
  have h := foldl_annotateStep_inv (responseText.map Char.toLower) rs
    ((actionableIndexed rs).insertionSort longerClaimRel) ([], [])
    (fun i hi => actionableIndexed_provenance rs i ((List.mem_insertionSort _).mp hi))
    ⟨rfl, List.Pairwise.nil, by simp⟩
  exact ⟨h.2.1, h.2.2⟩

/-- A good replacement is a non-empty in-bounds interval. -/
theorem goodRep_bounds {lower : List Char} {rs : List VerificationResult}
    {r : Replacement} (h : GoodRep lower rs r) :
    r.start < r.endPos ∧ r.endPos ≤ lower.length := by
  obtain ⟨vr, _, _, hne, hlen, _, hmatch⟩ := h
  unfold matchesAt at hmatch
  rw [ List.isPrefixOf_iff_prefix] at hmatch
  have hle := hmatch.length_le
  rw [List.length_map, List.length_drop] at hle
  have hpos : 0 < vr.claim.length := List.length_pos.mpr hne
  omega

/-- C3: the marker spans chosen by `annotateChairmanText` (its
`replacements`, as computed longest-first with first-fit non-overlapping
occurrences) are pairwise non-overlapping non-empty intervals lying inside
the text. -/
theorem annotate_spans_nonoverlapping (responseText : List Char)
    (stage25Results : List VerificationResult) :
    List.Pairwise disjointReps (computeReplacements responseText stage25Results)
    ∧ (computeReplacements responseText stage25Results).all
        (fun r => decide (r.start < r.endPos)
          && decide (r.endPos ≤ responseText.length)) = true := by
  obtain ⟨hpw, hgood⟩ := computeReplacements_spec responseText stage25Results
  refine ⟨hpw, List.all_eq_true.mpr (fun r hr => ?_)⟩
  have hb := goodRep_bounds (hgood r hr)
  rw [List.length_map] at hb
  simp [hb.1, hb.2]

/-! ## Structure of the annotated output (C6) -/

/-- The applied replacements in left-to-right order: the application sort
is descending by start, so its reverse is the ascending layout. -/
def annotationLayout (responseText : List Char)
    (stage25Results : List VerificationResult) : List Replacement :=
  ((computeReplacements responseText stage25Results).insertionSort laterStartRel).reverse

/-- Left-to-right rendering of an ascending replacement list over the
original text: plain original text between spans, each span wrapping the
original substring of its interval. -/
def renderFrom (text : List Char) (pos : Nat) : List Replacement → List Char
  | [] => text.drop pos
  | r :: rest =>
    (text.drop pos).take (r.start - pos) ++ spanOpen r.status r.claimIdx
      ++ (text.drop r.start).take (r.endPos - r.start) ++ spanClose
      ++ renderFrom text r.endPos rest

/-- Rendering with every injected tag removed: only the original-text
segments remain. -/
def plainFrom (text : List Char) (pos : Nat) : List Replacement → List Char
  | [] => text.drop pos
  | r :: rest =>
    (text.drop pos).take (r.start - pos)
      ++ (text.drop r.start).take (r.endPos - r.start)
      ++ plainFrom text r.endPos rest

/-- Ascending chain of intervals starting at or after `p`. -/
def RepChainFrom (p : Nat) : List Replacement → Prop
  | [] => True
  | r :: rest => p ≤ r.start ∧ r.start ≤ r.endPos ∧ RepChainFrom r.endPos rest

/-- Applying an ascending chain of in-bounds replacements rightmost-first
is the left-to-right rendering: no insertion shifts a not-yet-applied
match, and each span wraps the original substring of its interval. -/
theorem foldl_splice_eq_renderFrom (text : List Char) :
    ∀ (l : List Replacement) (p : Nat), RepChainFrom p l →
      (∀ r ∈ l, r.endPos ≤ text.length) →
      (l.reverse).foldl spliceReplacement text = text.take p ++ renderFrom text p l := by
  intro l
  induction l with
  | nil =>
    intro p _ _
    rw [List.reverse_nil, List.foldl_nil, renderFrom, List.take_append_drop]
  | cons r rest ih =>
    intro p hchain hb
    obtain ⟨hps, hse, hchain'⟩ := hchain
    have hre : r.endPos ≤ text.length := hb r (List.mem_cons_self _ _)
    have hA := ih r.endPos hchain' (fun x hx => hb x (List.mem_cons_of_mem _ hx))
    rw [List.reverse_cons, List.foldl_append, hA, List.foldl_cons, List.foldl_nil]
    have hlenA : (text.take r.endPos).length = r.endPos := by
      rw [List.length_take]
      omega
    have hlds : ((text.take r.endPos).drop r.start).length = r.endPos - r.start := by
      rw [List.length_drop, hlenA]
    unfold spliceReplacement
    rw [List.take_append_of_le_length (by rw [hlenA]; exact hse),
      List.take_take, min_eq_left hse,
      List.drop_append_of_le_length (by rw [hlenA]; exact hse),
      List.take_append_of_le_length (by rw [hlds]),
      ← hlds, List.take_length, List.drop_take,
      List.drop_append_of_le_length (le_of_eq hlenA.symm),
      List.drop_take, Nat.sub_self, List.take_zero, List.nil_append]
    have hsplit : text.take p ++ (text.drop p).take (r.start - p) = text.take r.start := by
      rw [← List.take_add]
      congr 1
      omega
    rw [renderFrom, ← hsplit]
    simp [List.append_assoc]

/-- Dropping the tags from the rendering of an ascending in-bounds chain
recovers the original text from `p` on. -/
theorem plainFrom_eq_drop (text : List Char) :
    ∀ (l : List Replacement) (p : Nat), RepChainFrom p l →
      (∀ r ∈ l, r.endPos ≤ text.length) →
      plainFrom text p l = text.drop p := by
  intro l
  induction l with
  | nil => intro p _ _; rfl
  | cons r rest ih =>
    intro p hchain hb
    obtain ⟨hps, hse, hchain'⟩ := hchain
    rw [plainFrom, ih r.endPos hchain' (fun x hx => hb x (List.mem_cons_of_mem _ hx))]
    have h1 : (text.drop r.start).take (r.endPos - r.start) ++ text.drop r.endPos
        = text.drop r.start := by
      have hd : text.drop r.endPos = (text.drop r.start).drop (r.endPos - r.start) := by
        rw [List.drop_drop]
        congr 1
        omega
      rw [hd, List.take_append_drop]
    have h2 : (text.drop p).take (r.start - p) ++ text.drop r.start = text.drop p := by
      have hd : text.drop r.start = (text.drop p).drop (r.start - p) := by
        rw [List.drop_drop]
        congr 1
        omega
      rw [hd, List.take_append_drop]
    rw [List.append_assoc, h1, h2]

/-- A start-sorted, pairwise-disjoint list of non-empty intervals is an
ascending chain. -/
theorem chain_of_sorted :
    ∀ (l : List Replacement) (p : Nat),
      List.Pairwise (fun a b => a.start ≤ b.start) l →
      List.Pairwise disjointReps l →
      (∀ r ∈ l, r.start < r.endPos) →
      (∀ r ∈ l, p ≤ r.start) →
      RepChainFrom p l := by
  intro l
  induction l with
  | nil => intro p _ _ _ _; trivial
  | cons r rest ih =>
    intro p hsort hdisj hpos hp
    rw [List.pairwise_cons] at hsort hdisj
    refine ⟨hp r (List.mem_cons_self _ _), le_of_lt (hpos r (List.mem_cons_self _ _)), ?_⟩
    refine ih r.endPos hsort.2 hdisj.2 (fun x hx => hpos x (List.mem_cons_of_mem _ hx)) ?_
    intro x hx
    have hs := hsort.1 x hx
    have hd := hdisj.1 x hx
    have hxe := hpos x (List.mem_cons_of_mem _ hx)
    unfold disjointReps at hd
    omega

/-- The ascending layout is a permutation of the computed replacements. -/
theorem annotationLayout_perm (responseText : List Char)
    (stage25Results : List VerificationResult) :
    (annotationLayout responseText stage25Results).Perm
      (computeReplacements responseText stage25Results) := by
  unfold annotationLayout
  exact (List.reverse_perm _).trans (List.perm_insertionSort _ _)

/-- The ascending layout is sorted by start position. -/
theorem annotationLayout_sorted (responseText : List Char)
    (stage25Results : List VerificationResult) :
    List.Pairwise (fun a b : Replacement => a.start ≤ b.start)
      (annotationLayout responseText stage25Results) := by
  unfold annotationLayout
  rw [List.pairwise_reverse]
  exact List.sorted_insertionSort laterStartRel _

/-- C6: the annotated text decomposes into the left-to-right rendering of
the ascending layout (each marker wraps exactly the original substring at
its matched interval — rightmost-first application shifts nothing);
dropping the injected tags recovers the original text character for
character; and every produced marker points at an actionable (never
UNVERIFIABLE) result whose claim has a case-insensitive occurrence at the
marked position, so unmatched claims and UNVERIFIABLE results contribute no
marker. -/
theorem annotate_render_decomposition (responseText : List Char)
    (stage25Results : List VerificationResult) :
    annotateChairmanText responseText stage25Results
      = renderFrom responseText 0 (annotationLayout responseText stage25Results)
    ∧ plainFrom responseText 0 (annotationLayout responseText stage25Results) = responseText
    ∧ (computeReplacements responseText stage25Results).all (fun r =>
        match stage25Results[r.claimIdx]? with
        | none => false
        | some vr =>
            [VStatus.verified, VStatus.contradicted, VStatus.contested].contains vr.status
            && matchesAt (responseText.map Char.toLower) (vr.claim.map Char.toLower) r.start
            && decide (r.endPos = r.start + vr.claim.length)
            && (r.status == statusLower vr.status)) = true := by
  obtain ⟨hpw, hgood⟩ := computeReplacements_spec responseText stage25Results
  have hperm := annotationLayout_perm responseText stage25Results
  have hsorted := annotationLayout_sorted responseText stage25Results
  have hdisj : List.Pairwise disjointReps (annotationLayout responseText stage25Results) :=
    (List.Perm.pairwise_iff (fun hxy => hxy.symm) hperm).mpr hpw
  have hbounds : ∀ r ∈ annotationLayout responseText stage25Results,
      r.endPos ≤ responseText.length := by
    intro r hr
    have hb := goodRep_bounds (hgood r (hperm.mem_iff.mp hr))
    rw [List.length_map] at hb
    exact hb.2
  have hpos : ∀ r ∈ annotationLayout responseText stage25Results, r.start < r.endPos :=
    fun r hr => (goodRep_bounds (hgood r (hperm.mem_iff.mp hr))).1
  have hchain := chain_of_sorted _ 0 hsorted hdisj hpos (fun r _ => Nat.zero_le _)
  refine ⟨?_, ?_, ?_⟩
  · unfold annotateChairmanText
    by_cases h0 : stage25Results.length = 0
    · rw [if_pos h0]
      have hrs : stage25Results = [] := List.length_eq_zero.mp h0
      subst hrs
      rw [show annotationLayout responseText [] = [] from rfl, renderFrom, List.drop_zero]
    · rw [if_neg h0]
      by_cases hrep : (computeReplacements responseText stage25Results).length = 0
      · rw [if_pos hrep]
        have hnil : computeReplacements responseText stage25Results = [] :=
          List.length_eq_zero.mp hrep
        rw [show annotationLayout responseText stage25Results = [] from by
          unfold annotationLayout; rw [hnil]; rfl]
        rw [renderFrom, List.drop_zero]
      · rw [if_neg hrep]
        have hrev : (computeReplacements responseText stage25Results).insertionSort
            laterStartRel = (annotationLayout responseText stage25Results).reverse := by
          unfold annotationLayout
          rw [List.reverse_reverse]
        rw [hrev, foldl_splice_eq_renderFrom responseText _ 0 hchain hbounds,
          List.take_zero, List.nil_append]
  · rw [plainFrom_eq_drop responseText _ 0 hchain hbounds, List.drop_zero]
  · refine List.all_eq_true.mpr (fun r hr => ?_)
    obtain ⟨vr, hvr, hact, hne, hlen, hstat, hmatch⟩ := hgood r hr
    simp [hvr, hact, hmatch, hlen, hstat]
    simpa using hact

end Crucible
